import Mathlib

/-!
Shallow embedding of the storage engine of the local-storage repository
(src/storage.h): the Key Index (`PersistentStorage`, an in-memory
map backed by a textual append log) and the Value Log (`Storage`, a
segmented binary log of key/value records addressed through the index).

File contents are modelled as values: the text append log as a `List Char`,
a segment file as the list of records it holds, and the set of on-disk
segment files as an association list from segment id to content.  The
result of a `fprintf` call (how many bytes it reports written) is an
explicit parameter, since it is decided by the environment.  `fsync`
results are likewise explicit parameters; the source ignores them, and the
embedding mirrors that by ignoring the corresponding arguments.
-/

namespace LocalStorage

/-- Association-list update with the semantics of `std::unordered_map`
assignment: replace the binding in place when the key is present,
otherwise append a new binding. -/
def alSet {α β : Type} [DecidableEq α] : List (α × β) → α → β → List (α × β)
  | [], k, v => [(k, v)]
  | (k', v') :: t, k, v =>
    if k' = k then (k, v) :: t else (k', v') :: alSet t k v

/-- Association-list lookup (first binding wins, as in `find`). -/
def alGet {α β : Type} [DecidableEq α] : List (α × β) → α → Option β
  | [], _ => none
  | (k', v') :: t, k => if k' = k then some v' else alGet t k

theorem alGet_alSet_self {α β : Type} [DecidableEq α]
    (m : List (α × β)) (k : α) (v : β) : alGet (alSet m k v) k = some v := by
  induction m with
  | nil => simp [alSet, alGet]
  | cons p t ih =>
    by_cases h : p.1 = k
    · simp [alSet, alGet, h]
    · simp [alSet, alGet, h, ih]

theorem alGet_alSet_ne {α β : Type} [DecidableEq α]
    (m : List (α × β)) (k k' : α) (v : β) (h : k ≠ k') :
    alGet (alSet m k v) k' = alGet m k' := by
  induction m with
  | nil => simp [alSet, alGet, h]
  | cons p t ih =>
    by_cases hp : p.1 = k
    · have : k ≠ k' := h
      simp [alSet, alGet, hp, this]
    · simp [alSet, alGet, hp, ih]

theorem alGet_eq_none_iff {α β : Type} [DecidableEq α]
    (m : List (α × β)) (k : α) :
    alGet m k = none ↔ k ∉ m.map Prod.fst := by
  induction m with
  | nil => simp [alGet]
  | cons p t ih =>
    by_cases h : p.1 = k
    · simp [alGet, h]
    · simp [alGet, h, ih]
      intro hk
      exact fun he => h he.symm

theorem mem_alSet {α β : Type} [DecidableEq α]
    (m : List (α × β)) (k : α) (v : β) (p : α × β)
    (hp : p ∈ alSet m k v) : p ∈ m ∨ p = (k, v) := by
  induction m with
  | nil => simp [alSet] at hp; simp [hp]
  | cons q t ih =>
    by_cases h : q.1 = k
    · simp [alSet, h] at hp
      rcases hp with hp | hp
      · right; simp [hp]
      · left; simp [hp]
    · simp [alSet, h] at hp
      rcases hp with hp | hp
      · left; simp [hp]
      · rcases ih hp with h1 | h1
        · left; simp [h1]
        · right; exact h1

/-- Whitespace as classified by `operator>>` (C `isspace`). -/
def isWS (c : Char) : Bool :=
  c = ' ' || c = '\t' || c = '\n' || c = '\x0b' || c = '\x0c' || c = '\r'

/-- Decimal digits of a natural number, accumulator form; fuel-structural so
that it evaluates by kernel reduction.  Models `std::to_string` on the
`uint64_t` location value. -/
def natDigitsCore : Nat → Nat → List Char → List Char
  | 0, _, acc => acc
  | fuel + 1, n, acc =>
    if n = 0 then acc
    else natDigitsCore fuel (n / 10) (Char.ofNat (48 + n % 10) :: acc)

/-- Decimal representation of a natural number as characters. -/
def natDigits (n : Nat) : List Char :=
  if n = 0 then ['0'] else natDigitsCore n n []

/-- Numeric value of a digit string, as read by `operator>>` into `uint64_t`. -/
def natOfDigits (ds : List Char) : Nat :=
  ds.foldl (fun a c => 10 * a + (c.toNat - 48)) 0

/-- The bytes `write_to_disk` hands to `fprintf` for one index record:
`"<key> <location> "`. -/
def record (k : String) (v : Nat) : List Char :=
  k.data ++ ' ' :: (natDigits v ++ [' '])

/-- The `while (f >> key >> value)` read loop of
`PersistentStorage::load_from_disk`: skip whitespace, read a token as the
key, skip whitespace, read a maximal digit run as the value; stop when
either read fails.  Fuel-structural (the fuel bounds the number of loop
iterations) so that it evaluates by kernel reduction. -/
def parseCharsF : Nat → List Char → List (String × Nat) → List (String × Nat)
  | 0, _, m => m
  | fuel + 1, cs, m =>
    let cs1 := cs.dropWhile isWS
    let key := cs1.takeWhile (fun c => !isWS c)
    if key = [] then m
    else
      let cs2 := cs1.drop key.length
      let cs3 := cs2.dropWhile isWS
      let digits := cs3.takeWhile Char.isDigit
      if digits = [] then m
      else parseCharsF fuel (cs3.drop digits.length) (alSet m (String.mk key) (natOfDigits digits))

/-- Map obtained by replaying the append log text, last occurrence of a key
winning (`_storage[key] = value` inside the read loop). -/
def loadMap (content : List Char) : List (String × Nat) :=
  parseCharsF (content.length + 1) content []

/-- The compacted snapshot `load_from_disk` and the destructor write back:
one `"<key> <value> "` record per map entry, in iteration order. -/
def serializeMap : List (String × Nat) → List Char
  | [] => []
  | (k, v) :: t => record k v ++ serializeMap t

/-- State of one (default-constructed) `PersistentStorage` instance: the
authoritative map `_storage`, the FIFO queue `not_confirmed`, and the
content of its append-log file `data.log`. -/
structure PSState where
  _storage : List (String × Nat)
  not_confirmed : List (String × Nat)
  log : List Char
deriving DecidableEq, Repr

def psEmpty : PSState := { _storage := [], not_confirmed := [], log := [] }

namespace PersistentStorage

/-- Translation of `PersistentStorage::write_to_disk`: build the record
text, hand it to `fprintf` (which reports `res` bytes written); if the
full record was written, flush and enqueue the pair into `not_confirmed`
and report `true`, otherwise report `false` (the file received the bytes
`fprintf` did write). -/
def write_to_disk (res : Nat) (k : String) (v : Nat) (s : PSState) : Bool × PSState :=
  let to_write := record k v
  if res = to_write.length then
    (true, { s with log := s.log ++ to_write,
                    not_confirmed := s.not_confirmed ++ [(k, v)] })
  else
    (false, { s with log := s.log ++ to_write.take res })

/-- Translation of `PersistentStorage::put`: calls `write_to_disk` and
discards its boolean result (the member function is declared `void`).
The first component is the (empty) value `put` returns to its caller. -/
def put (res : Nat) (k : String) (v : Nat) (s : PSState) : Unit × PSState :=
  ((), (write_to_disk res k v s).2)

/-- Translation of `PersistentStorage::find`: look the key up in
`_storage` only. -/
def find (k : String) (s : PSState) : Option Nat :=
  alGet s._storage k

/-- FIFO drain of the `not_confirmed` queue into the map
(`while(!not_confirmed.empty()) { _storage[front.first] = front.second; pop; }`). -/
def drainQ (m : List (String × Nat)) (q : List (String × Nat)) : List (String × Nat) :=
  q.foldl (fun m' p => alSet m' p.1 p.2) m

/-- Translation of `PersistentStorage::sync`: calls `fsync` — whose result
(the `fsyncOk` argument) the source never examines — then drains the whole
`not_confirmed` queue into `_storage`. -/
def sync (fsyncOk : Bool) (s : PSState) : PSState :=
  let _ := fsyncOk
  { s with _storage := drainQ s._storage s.not_confirmed, not_confirmed := [] }

/-- Translation of the default-argument constructor: `load_from_disk`
replays the append log into `_storage` and rewrites the file as a
compacted snapshot; the queue starts empty; the append handle is then
opened on the same file. -/
def ctor (content : List Char) : PSState :=
  let m := loadMap content
  { _storage := m, not_confirmed := [], log := serializeMap m }

/-- Translation of `~PersistentStorage`: close the handle and rewrite the
file from `_storage` alone; the result is the file content it leaves. -/
def dtor (s : PSState) : List Char :=
  serializeMap s._storage

end PersistentStorage

/-- State of a `PersistentStorage` instance together with the whole file
system, used to study the constructor's `filename` argument.  `handle` is
the file name the append `FILE*` was opened on; `fs` maps file names to
contents.  Because the constructor body performs `filename = filename`
(assigning the parameter to itself), the member `filename` keeps its
default `"data.log"`; only the `fopen` call, which reads the parameter,
sees the argument. -/
structure PSFState where
  _storage : List (String × Nat)
  not_confirmed : List (String × Nat)
  handle : String
  fs : List (String × List Char)
deriving DecidableEq, Repr

namespace PersistentStorageF

/-- Translation of `PersistentStorage(std::string filename="data.log")`
over an explicit file system: `load_from_disk` reads and rewrites the
file named by the member — still `"data.log"` after the parameter
self-assignment — while `fopen(filename.c_str(), "a")` opens the append
handle on the argument-named file (creating it empty if missing). -/
def ctor (arg : String) (fs0 : List (String × List Char)) : PSFState :=
  let content := (alGet fs0 "data.log").getD []
  let m := loadMap content
  let fs1 := alSet fs0 "data.log" (serializeMap m)
  let fs2 := if (alGet fs1 arg).isSome then fs1 else alSet fs1 arg []
  { _storage := m, not_confirmed := [], handle := arg, fs := fs2 }

/-- Translation of `put`/`write_to_disk` in the file-system model: the
record bytes go to the file the append handle was opened on. -/
def put (res : Nat) (k : String) (v : Nat) (s : PSFState) : PSFState :=
  let to_write := record k v
  let cur := (alGet s.fs s.handle).getD []
  if res = to_write.length then
    { s with fs := alSet s.fs s.handle (cur ++ to_write),
             not_confirmed := s.not_confirmed ++ [(k, v)] }
  else
    { s with fs := alSet s.fs s.handle (cur ++ to_write.take res) }

end PersistentStorageF

/-- One record of a Value Log segment file: a key and a value, stored as
`[uint64 key_len][key][uint64 value_len][value]`. -/
abbrev Rec := String × String

/-- On-disk byte size of one segment record (two 8-byte length prefixes
plus the key and value bytes). -/
def recSize (r : Rec) : Nat :=
  8 + r.1.length + 8 + r.2.length

/-- Total byte size of a run of records. -/
def recsSize : List Rec → Nat
  | [] => 0
  | r :: t => recSize r + recsSize t

/-- Decode one record starting at byte offset `off` of a segment that
holds `recs` back to back: succeeds exactly when `off` is the start
offset of a record (the source would decode garbage bytes at a
misaligned offset, which no claim exercises). -/
def readAt : List Rec → Nat → Option Rec
  | [], _ => none
  | r :: t, off =>
    if off = 0 then some r
    else if off < recSize r then none
    else readAt t (off - recSize r)

/-- Translation of `Storage`'s fields: the embedded Key Index instance
`map`, the on-disk segment files `str_data_<id>` as an association list
from id to content, and `next_file_id`.  The active segment is
`next_file_id - 1`; the active handle's `ftell` equals that file's size,
since every write appends and `get_from_log` restores the position with
`fseek(f, 0, SEEK_END)`. -/
structure StState where
  map : PSState
  files : List (Nat × List Rec)
  next_file_id : Nat
deriving DecidableEq, Repr

/-- The soft segment capacity `max_size = 1024 * 1024 * 32`. -/
def max_size : Nat := 1024 * 1024 * 32

namespace Storage

/-- Content of the active segment file. -/
def activeContent (s : StState) : List Rec :=
  (alGet s.files (s.next_file_id - 1)).getD []

/-- The active handle's write position (`ftell(file)`). -/
def ftellActive (s : StState) : Nat :=
  recsSize (activeContent s)

/-- Translation of `Storage::open_new_file`: open (truncating)
`str_data_<next_file_id>` and advance `next_file_id`. -/
def open_new_file (s : StState) : StState :=
  { s with files := alSet s.files s.next_file_id [],
           next_file_id := s.next_file_id + 1 }

/-- Translation of `Storage::write_to_log`: take the current offset, rotate
first if it is at or beyond `max_size`, append the framed record to the
active segment, and `map.put` the virtual offset
`(next_file_id - 1) * max_size + offset` of the record's start (`res` is
the `fprintf` result inside that index put). -/
def write_to_log (res : Nat) (k v : String) (s : StState) : StState :=
  let offset0 := ftellActive s
  let sr := if offset0 ≥ max_size then open_new_file s else s
  let offset := if offset0 ≥ max_size then 0 else offset0
  let s1 := { sr with files := alSet sr.files (sr.next_file_id - 1) (activeContent sr ++ [(k, v)]) }
  { s1 with map := (PersistentStorage.put res k ((s1.next_file_id - 1) * max_size + offset) s1.map).2 }

/-- Translation of `Storage::put`. -/
def put (res : Nat) (k v : String) (s : StState) : StState :=
  write_to_log res k v s

/-- Translation of `Storage::get_from_log`: split the virtual offset into
segment id and byte offset, read from the active handle when the id is the
active segment and otherwise open `str_data_<id>`, and decode one record
there. -/
def get_from_log (offset : Nat) (s : StState) : Option String :=
  let file_id := offset / max_size
  let file_offset := offset % max_size
  let seg :=
    if file_id + 1 = s.next_file_id then alGet s.files (s.next_file_id - 1)
    else alGet s.files file_id
  match seg with
  | none => none
  | some recs => (readAt recs file_offset).map Prod.snd

/-- Translation of `Storage::get`: index lookup, then `get_from_log`;
`none` models the `false` return when the key is absent. -/
def get (k : String) (s : StState) : Option String :=
  match PersistentStorage.find k s.map with
  | none => none
  | some offset => get_from_log offset s

/-- Translation of `Storage::sync`: `map.sync()` then `fsync(fd)` on the
active segment; neither `fsync` result (`ok1` inside the index, `ok2`
here) is examined by the source. -/
def sync (ok1 ok2 : Bool) (s : StState) : StState :=
  let _ := ok2
  { s with map := PersistentStorage.sync ok1 s.map }

/-- The probe loop of `Storage::load_from_disk`: try
`fopen(str_data_0)`, `str_data_1`, … until one is missing; returns the
first missing id.  Fuel-structural; the fuel `|files| + 1` always
suffices because at most `|files|` distinct ids exist. -/
def probeF : Nat → Nat → List (Nat × List Rec) → Nat
  | 0, i, _ => i
  | fuel + 1, i, files =>
    if (alGet files i).isSome then probeF fuel (i + 1) files else i

def probe (files : List (Nat × List Rec)) : Nat :=
  probeF (files.length + 1) 0 files

/-- The per-segment scan loop of `Storage::load_from_disk`, translated
with its exact control flow: `fileIdCmp` is the variable `file_id`
(the probe result, loop-invariant across segments) that the source —
rather than the scanned segment's id `i` — uses in the offset
comparison; a record whose key is absent from the index is skipped by
`continue`, which also skips the `offset += cur_offset` update; a
matching record is re-appended through `write_to_log` and then re-put
at `(next_file_id - 1) * max_size + offset` with the old local
`offset`.  `oracle` supplies the `fprintf` results of the index puts,
indexed by the running counter `ctr`. -/
def scanSeg (oracle : Nat → Nat) (fileIdCmp : Nat) :
    List Rec → Nat → StState → Nat → StState × Nat
  | [], _, st, ctr => (st, ctr)
  | (k, v) :: rest, offset, st, ctr =>
    let cur := 8 + k.length + 8 + v.length
    match PersistentStorage.find k st.map with
    | none => scanSeg oracle fileIdCmp rest offset st ctr
    | some saved =>
      let p :=
        if saved = fileIdCmp * max_size + offset then
          let stA := write_to_log (oracle ctr) k v st
          (({ stA with
              map := (PersistentStorage.put (oracle (ctr + 1)) k
                        ((stA.next_file_id - 1) * max_size + offset) stA.map).2 } : StState),
           ctr + 2)
        else (st, ctr)
      let offset1 := offset + cur
      if offset1 ≥ max_size then p
      else scanSeg oracle fileIdCmp rest offset1 p.1 p.2

/-- The outer `for (int i = 0; i < file_id; i++)` loop over previously
known segments. -/
def recoverSegs (oracle : Nat → Nat) (fileIdCmp : Nat) :
    List Nat → StState × Nat → StState × Nat
  | [], p => p
  | i :: rest, (st, ctr) =>
    recoverSegs oracle fileIdCmp rest
      (scanSeg oracle fileIdCmp ((alGet st.files i).getD []) 0 st ctr)

/-- Translation of `Storage::load_from_disk` (the constructor body):
probe the previously known segments, open a fresh active segment, then
scan segments `0 … file_id - 1` in order.  `map0` is the embedded Key
Index as its own constructor left it, `files0` the on-disk segment
files.  No segment file is ever removed. -/
def load_from_disk (oracle : Nat → Nat) (map0 : PSState)
    (files0 : List (Nat × List Rec)) : StState :=
  let file_id := probe files0
  let st0 : StState := { map := map0, files := files0, next_file_id := file_id }
  (recoverSegs oracle file_id (List.range file_id) (open_new_file st0, 0)).1

/-- The virtual offset the next `write_to_log` on state `s` will store:
`next_file_id * max_size` after a rotation, else
`(next_file_id - 1) * max_size + ftell`.  Used only to phrase
success hypotheses about the `fprintf` result of the embedded index
put. -/
def writeVoff (s : StState) : Nat :=
  if ftellActive s ≥ max_size then s.next_file_id * max_size
  else (s.next_file_id - 1) * max_size + ftellActive s

end Storage

/-- A sequence of index `put` calls, each with its own `fprintf` result:
used to model the operations between a write and the next `sync`. -/
def putSeq : List (Nat × String × Nat) → PSState → PSState
  | [], s => s
  | (res, k, v) :: t, s => putSeq t (PersistentStorage.put res k v s).2

/-- Key Index state with one pending unconfirmed write, used to exercise
`sync` under a failed durable flush. -/
def psC2 : PSState := { _storage := [], not_confirmed := [("a", 1)], log := record "a" 1 }

/-- A freshly constructed Value Log over an empty disk: empty index, one
empty active segment `str_data_0`. -/
def stFresh : StState := { map := psEmpty, files := [(0, [])], next_file_id := 1 }

/-- Key Index state before a restart in which `"a"` is confirmed at
virtual offset `0 * max_size + 0 = 0` — exactly the offset of the record
`("a", "x")` at the start of segment 0. -/
def psC3 : PSState := { _storage := [("a", 0)], not_confirmed := [], log := record "a" 0 }

/-- One previously-known segment file `str_data_0` holding the single
live record `("a", "x")` at byte offset 0. -/
def filesC3 : List (Nat × List Rec) := [(0, [("a", "x")])]

/-- Three previously-known (empty) segment files `str_data_0..2`. -/
def filesC6 : List (Nat × List Rec) := [(0, []), (1, []), (2, [])]

/-- No segment file with id in `[n, next_file_id)` — the ones the
recovery pass created or wrote — holds a record keyed `k`. -/
def KFree (k : String) (n : Nat) (st : StState) : Prop :=
  ∀ j, n ≤ j → j < st.next_file_id →
    ∀ r ∈ (alGet st.files j).getD ([] : List Rec), r.1 ≠ k

/-- Well-formed index key: non-empty and whitespace-free, as every key
read back from the append log is (`operator>>` tokens). -/
def wfKey (k : String) : Prop :=
  k.data ≠ [] ∧ ∀ c ∈ k.data, isWS c = false

/-- File system holding only `data.log` with one confirmed entry. -/
def fsC10 : List (String × List Char) := [("data.log", record "a" 1)]

/-!
Theorems.  Each claim of the specification is settled below; helper
lemmas come first.
-/

theorem put_storage (res : Nat) (k : String) (v : Nat) (s : PSState) :
    ((PersistentStorage.put res k v s).2)._storage = s._storage := by
  simp only [PersistentStorage.put, PersistentStorage.write_to_disk]
  split <;> rfl

theorem put_success_state (res : Nat) (k : String) (v : Nat) (s : PSState)
    (h : res = (record k v).length) :
    ((PersistentStorage.put res k v s).2).not_confirmed = s.not_confirmed ++ [(k, v)]
    ∧ ((PersistentStorage.put res k v s).2).log = s.log ++ record k v := by
  simp [PersistentStorage.put, PersistentStorage.write_to_disk, h]

theorem putSeq_storage (ops : List (Nat × String × Nat)) (s : PSState) :
    (putSeq ops s)._storage = s._storage := by
  induction ops generalizing s with
  | nil => rfl
  | cons o t ih =>
    obtain ⟨res, k, v⟩ := o
    rw [putSeq, ih, put_storage]

theorem putSeq_not_confirmed (ops : List (Nat × String × Nat)) (s : PSState) :
    ∃ q', (putSeq ops s).not_confirmed = s.not_confirmed ++ q'
      ∧ ∀ p ∈ q', ∃ o ∈ ops, o.2.1 = p.1 := by
  induction ops generalizing s with
  | nil => exact ⟨[], by simp [putSeq]⟩
  | cons o t ih =>
    obtain ⟨res, k, v⟩ := o
    rcases ih (PersistentStorage.put res k v s).2 with ⟨q', hq, hmem⟩
    by_cases h : res = (record k v).length
    · refine ⟨(k, v) :: q', ?_, ?_⟩
      · rw [putSeq, hq, (put_success_state res k v s h).1, List.append_assoc]
        rfl
      · intro p hp
        rcases List.mem_cons.mp hp with hp | hp
        · exact ⟨(res, k, v), List.mem_cons_self _ _, by simp [hp]⟩
        · rcases hmem p hp with ⟨o, ho, hk⟩
          exact ⟨o, List.mem_cons_of_mem _ ho, hk⟩
    · refine ⟨q', ?_, ?_⟩
      · rw [putSeq, hq]
        congr 1
        simp [PersistentStorage.put, PersistentStorage.write_to_disk, h]
      · intro p hp
        rcases hmem p hp with ⟨o, ho, hk⟩
        exact ⟨o, List.mem_cons_of_mem _ ho, hk⟩

theorem drainQ_append (m a b) :
    PersistentStorage.drainQ m (a ++ b)
      = PersistentStorage.drainQ (PersistentStorage.drainQ m a) b := by
  simp [PersistentStorage.drainQ, List.foldl_append]

theorem alGet_drainQ_of_ne (m q : List (String × Nat)) (k : String)
    (h : ∀ p ∈ q, p.1 ≠ k) :
    alGet (PersistentStorage.drainQ m q) k = alGet m k := by
  induction q generalizing m with
  | nil => rfl
  | cons p t ih =>
    have hstep : PersistentStorage.drainQ m (p :: t)
        = PersistentStorage.drainQ (alSet m p.1 p.2) t := rfl
    rw [hstep, ih _ fun q hq => h q (List.mem_cons_of_mem _ hq)]
    exact alGet_alSet_ne _ _ _ _ (h p (List.mem_cons_self _ _))

/-- C1 (confirmed): durability gate of the Key Index.  A successful
`put(k, v)` leaves the authoritative map untouched, so `find k` is
unchanged — and in particular still `none` when `k` was never previously
confirmed — through any further sequence of puts; after the next `sync`
(with no intervening put to `k`), `find k` returns `some v`. -/
theorem durability_gate (s0 : PSState) (k : String) (v : Nat) (res : Nat)
    (ops : List (Nat × String × Nat)) (b : Bool)
    (hres : res = (record k v).length)
    (hops : ∀ o ∈ ops, o.2.1 ≠ k) :
    ((PersistentStorage.put res k v s0).2)._storage = s0._storage
    ∧ PersistentStorage.find k (PersistentStorage.put res k v s0).2
        = PersistentStorage.find k s0
    ∧ (PersistentStorage.find k s0 = none →
        PersistentStorage.find k (putSeq ops (PersistentStorage.put res k v s0).2) = none)
    ∧ PersistentStorage.find k
        (PersistentStorage.sync b (putSeq ops (PersistentStorage.put res k v s0).2))
        = some v := by
  have hstor := put_storage res k v s0
  refine ⟨hstor, ?_, ?_, ?_⟩
  · simp [PersistentStorage.find, hstor]
  · intro h0
    simp [PersistentStorage.find, putSeq_storage, hstor]
    simpa [PersistentStorage.find] using h0
  · rcases putSeq_not_confirmed ops (PersistentStorage.put res k v s0).2 with ⟨q', hq, hmem⟩
    have hq1 := (put_success_state res k v s0 hres).1
    have hfind : PersistentStorage.find k
        (PersistentStorage.sync b (putSeq ops (PersistentStorage.put res k v s0).2))
        = alGet (PersistentStorage.drainQ
            ((putSeq ops (PersistentStorage.put res k v s0).2)._storage)
            ((putSeq ops (PersistentStorage.put res k v s0).2).not_confirmed)) k := rfl
    have hsingle : ∀ (m : List (String × Nat)),
        PersistentStorage.drainQ m [(k, v)] = alSet m k v := fun _ => rfl
    rw [hfind, hq, hq1, List.append_assoc, drainQ_append, drainQ_append]
    rw [alGet_drainQ_of_ne]
    · rw [hsingle, alGet_alSet_self]
    · intro p hp
      rcases hmem p hp with ⟨o, ho, hk⟩
      rw [← hk]
      exact hops o ho

/-- Witness for `durability_gate` at a concrete run: an empty store, a
successful `put("a", 1)` (four bytes written), one intervening put to a
different key, then `sync`. -/
theorem durability_gate_witness :
    (4 = (record "a" 1).length ∧ ∀ o ∈ [(9, "b", 2)], (o : Nat × String × Nat).2.1 ≠ "a")
    ∧ (((PersistentStorage.put 4 "a" 1 psEmpty).2)._storage = psEmpty._storage
       ∧ PersistentStorage.find "a" (PersistentStorage.put 4 "a" 1 psEmpty).2
           = PersistentStorage.find "a" psEmpty
       ∧ (PersistentStorage.find "a" psEmpty = none →
           PersistentStorage.find "a"
             (putSeq [(9, "b", 2)] (PersistentStorage.put 4 "a" 1 psEmpty).2) = none)
       ∧ PersistentStorage.find "a"
           (PersistentStorage.sync true
             (putSeq [(9, "b", 2)] (PersistentStorage.put 4 "a" 1 psEmpty).2))
           = some 1) :=
  ⟨⟨by decide, by decide⟩,
   durability_gate psEmpty "a" 1 4 [(9, "b", 2)] true (by decide) (by decide)⟩

/-- C2 (counterexample): with one pending write, `sync` under a failed
durable flush returns the very same normally-computed state as under a
successful one — the queue fully drained into the map — instead of
aborting.  The source calls `fsync(fd)` and never examines its result. -/
theorem sync_failed_flush_returns_normally :
    PersistentStorage.sync false psC2 = PersistentStorage.sync true psC2
    ∧ PersistentStorage.sync false psC2
        = { _storage := [("a", 1)], not_confirmed := [], log := record "a" 1 } := by
  exact ⟨rfl, by decide⟩

/-- C2 (amended): `sync` ignores the durable-flush result entirely: for
either flush outcome it returns normally, drains the pending queue
completely (never partially) into the authoritative map, and computes
the same state; likewise `Storage::sync`. -/
theorem sync_ignores_flush_result (b b2 : Bool) (s : PSState) (st : StState) :
    PersistentStorage.sync b s = PersistentStorage.sync (!b) s
    ∧ (PersistentStorage.sync b s).not_confirmed = []
    ∧ (PersistentStorage.sync b s)._storage
        = PersistentStorage.drainQ s._storage s.not_confirmed
    ∧ Storage.sync b b2 st = Storage.sync (!b) (!b2) st
    ∧ (Storage.sync b b2 st).map.not_confirmed = [] :=
  ⟨rfl, rfl, rfl, rfl, rfl⟩

/-- C7 (counterexample): the value `put` hands back to its caller is the
same whether the flush failed (`fprintf` wrote 0 of the 4 record bytes)
or succeeded — the member is `void` and discards the boolean that
`write_to_disk` computes — so `put` does not report the flush result to
its caller.  On the failed write the state is completely unchanged. -/
theorem put_discards_flush_result :
    (PersistentStorage.put 0 "a" 1 psEmpty).1 = (PersistentStorage.put 4 "a" 1 psEmpty).1
    ∧ (PersistentStorage.write_to_disk 0 "a" 1 psEmpty).1 = false
    ∧ (PersistentStorage.write_to_disk 4 "a" 1 psEmpty).1 = true
    ∧ (PersistentStorage.put 0 "a" 1 psEmpty).2 = psEmpty := by
  exact ⟨rfl, by decide, by decide, by decide⟩

/-- C7 (amended): `write_to_disk` reports the flush result as a boolean,
but `put` — declared `void` — discards it; when the record is not fully
written, the pair is not enqueued into `not_confirmed` and the
authoritative map is left unchanged. -/
theorem write_failure_semantics (res : Nat) (k : String) (v : Nat) (s : PSState)
    (hfail : res ≠ (record k v).length) :
    (PersistentStorage.write_to_disk res k v s).1 = false
    ∧ (PersistentStorage.put res k v s).2.not_confirmed = s.not_confirmed
    ∧ (PersistentStorage.put res k v s).2._storage = s._storage := by
  simp [PersistentStorage.put, PersistentStorage.write_to_disk, hfail]

/-- Witness for `write_failure_semantics`: a zero-byte `fprintf` result
against the four-byte record of `put("a", 1)` on the empty store. -/
theorem write_failure_semantics_witness :
    (0 ≠ (record "a" 1).length)
    ∧ ((PersistentStorage.write_to_disk 0 "a" 1 psEmpty).1 = false
       ∧ (PersistentStorage.put 0 "a" 1 psEmpty).2.not_confirmed = psEmpty.not_confirmed
       ∧ (PersistentStorage.put 0 "a" 1 psEmpty).2._storage = psEmpty._storage) :=
  ⟨by decide, write_failure_semantics 0 "a" 1 psEmpty (by decide)⟩

theorem max_size_pos : 0 < max_size := by decide

theorem recSize_pos (r : Rec) : 0 < recSize r := by
  simp only [recSize]
  omega

theorem readAt_append_last (rs : List Rec) (r : Rec) :
    readAt (rs ++ [r]) (recsSize rs) = some r := by
  induction rs with
  | nil => simp [readAt, recsSize]
  | cons r0 t ih =>
    have h0 : 0 < recSize r0 := recSize_pos r0
    show readAt (r0 :: (t ++ [r])) (recSize r0 + recsSize t) = some r
    rw [readAt, if_neg (by omega), if_neg (by omega), Nat.add_sub_cancel_left]
    exact ih

/-- Branch equation for `write_to_log` when the active segment is full:
rotate, write the record at offset 0 of the fresh segment, and index it
at virtual offset `next_file_id * max_size`. -/
theorem write_to_log_rot (res : Nat) (k v : String) (s : StState)
    (h : Storage.ftellActive s ≥ max_size) :
    Storage.write_to_log res k v s =
      { map := (PersistentStorage.put res k (s.next_file_id * max_size) s.map).2,
        files := alSet (alSet s.files s.next_file_id []) s.next_file_id [(k, v)],
        next_file_id := s.next_file_id + 1 } := by
  have hact : Storage.activeContent (Storage.open_new_file s) = [] := by
    simp [Storage.activeContent, Storage.open_new_file, alGet_alSet_self]
  simp only [Storage.write_to_log, if_pos h]
  simp [Storage.open_new_file, Storage.activeContent, alGet_alSet_self]

/-- Branch equation for `write_to_log` when no rotation is needed. -/
theorem write_to_log_norot (res : Nat) (k v : String) (s : StState)
    (h : ¬ Storage.ftellActive s ≥ max_size) :
    Storage.write_to_log res k v s =
      { map := (PersistentStorage.put res k
                  ((s.next_file_id - 1) * max_size + Storage.ftellActive s) s.map).2,
        files := alSet s.files (s.next_file_id - 1) (Storage.activeContent s ++ [(k, v)]),
        next_file_id := s.next_file_id } := by
  simp only [Storage.write_to_log, if_neg h]

/-- The effect of one `write_to_log` whose embedded index write succeeds:
the authoritative map is untouched, the pair `(k, writeVoff s)` is
enqueued, the record lands at the end of segment `writeVoff s / max_size`,
and the record's start offset within that segment is
`writeVoff s % max_size`. -/
theorem write_to_log_effect (res : Nat) (k v : String) (s : StState)
    (hres : res = (record k (Storage.writeVoff s)).length) :
    (Storage.write_to_log res k v s).map._storage = s.map._storage
    ∧ (Storage.write_to_log res k v s).map.not_confirmed
        = s.map.not_confirmed ++ [(k, Storage.writeVoff s)]
    ∧ (Storage.write_to_log res k v s).files
        = alSet (if Storage.ftellActive s ≥ max_size then alSet s.files s.next_file_id []
                 else s.files)
            (Storage.writeVoff s / max_size)
            ((if Storage.ftellActive s ≥ max_size then [] else Storage.activeContent s) ++ [(k, v)])
    ∧ Storage.writeVoff s % max_size
        = recsSize (if Storage.ftellActive s ≥ max_size then []
                    else Storage.activeContent s)
    ∧ (Storage.write_to_log res k v s).next_file_id
        = (if Storage.ftellActive s ≥ max_size then s.next_file_id + 1 else s.next_file_id) := by
  by_cases h : Storage.ftellActive s ≥ max_size
  · have heq := write_to_log_rot res k v s h
    have hvoff : Storage.writeVoff s = s.next_file_id * max_size := by
      simp [Storage.writeVoff, h]
    have hdiv : Storage.writeVoff s / max_size = s.next_file_id := by
      rw [hvoff]
      exact Nat.mul_div_cancel _ max_size_pos
    have hmod : Storage.writeVoff s % max_size = 0 := by
      rw [hvoff]
      exact Nat.mul_mod_left _ _
    refine ⟨?_, ?_, ?_, ?_, ?_⟩
    · rw [heq]
      exact put_storage _ _ _ _
    · rw [heq]
      have hsucc : res = (record k (s.next_file_id * max_size)).length := by
        rw [hres, hvoff]
      rw [(put_success_state res k (s.next_file_id * max_size) s.map hsucc).1, hvoff]
    · rw [heq, if_pos h, if_pos h, hdiv]
      simp
    · rw [hmod, if_pos h]
      rfl
    · rw [heq, if_pos h]
  · have heq := write_to_log_norot res k v s h
    have hlt : Storage.ftellActive s < max_size := Nat.lt_of_not_le h
    have hvoff : Storage.writeVoff s
        = (s.next_file_id - 1) * max_size + Storage.ftellActive s := by
      simp [Storage.writeVoff, h]
    have hdiv : Storage.writeVoff s / max_size = s.next_file_id - 1 := by
      rw [hvoff, Nat.mul_comm, Nat.mul_add_div max_size_pos,
        Nat.div_eq_of_lt hlt, Nat.add_zero]
    have hmod : Storage.writeVoff s % max_size = Storage.ftellActive s := by
      rw [hvoff, Nat.mul_comm, Nat.mul_add_mod, Nat.mod_eq_of_lt hlt]
    refine ⟨?_, ?_, ?_, ?_, ?_⟩
    · rw [heq]
      exact put_storage _ _ _ _
    · rw [heq]
      have hsucc : res
          = (record k ((s.next_file_id - 1) * max_size + Storage.ftellActive s)).length := by
        rw [hres, hvoff]
      rw [(put_success_state res k
        ((s.next_file_id - 1) * max_size + Storage.ftellActive s) s.map hsucc).1, hvoff]
    · rw [heq, if_neg h, if_neg h, hdiv]
    · rw [hmod, if_neg h]
      rfl
    · rw [heq, if_neg h]

/-- C5 (confirmed): rotation and virtual-offset encoding of
`write_to_log`.  When the active segment's offset is at or beyond
`max_size`, the engine rotates first (new segment, write offset reset to
0); the Key Index receives the pair `(key, active_id * max_size +
start_offset)` with `active_id = next_file_id - 1` taken after the write
and `start_offset` the record's byte offset within its segment. -/
theorem rotation_and_virtual_offset (s : StState) (k v : String) (res : Nat)
    (hres : res = (record k (Storage.writeVoff s)).length) :
    (Storage.ftellActive s ≥ max_size →
        (Storage.put res k v s).next_file_id = s.next_file_id + 1
        ∧ alGet (Storage.put res k v s).files ((Storage.put res k v s).next_file_id - 1)
            = some [(k, v)]
        ∧ (Storage.put res k v s).map.not_confirmed
            = s.map.not_confirmed
              ++ [(k, ((Storage.put res k v s).next_file_id - 1) * max_size + 0)])
    ∧ (Storage.ftellActive s < max_size →
        (Storage.put res k v s).next_file_id = s.next_file_id
        ∧ alGet (Storage.put res k v s).files ((Storage.put res k v s).next_file_id - 1)
            = some (Storage.activeContent s ++ [(k, v)])
        ∧ (Storage.put res k v s).map.not_confirmed
            = s.map.not_confirmed
              ++ [(k, ((Storage.put res k v s).next_file_id - 1) * max_size
                      + Storage.ftellActive s)]) := by
  obtain ⟨hst, hq, hf, hmod, hnext⟩ := write_to_log_effect res k v s hres
  have hput : Storage.put res k v s = Storage.write_to_log res k v s := rfl
  rw [hput]
  constructor
  · intro h
    have hvoff : Storage.writeVoff s = s.next_file_id * max_size := by
      simp [Storage.writeVoff, h]
    have hdiv : Storage.writeVoff s / max_size = s.next_file_id := by
      rw [hvoff]
      exact Nat.mul_div_cancel _ max_size_pos
    have hn : (Storage.write_to_log res k v s).next_file_id = s.next_file_id + 1 := by
      rw [hnext, if_pos h]
    refine ⟨hn, ?_, ?_⟩
    · rw [hf, hn, Nat.add_sub_cancel, hdiv, alGet_alSet_self, if_pos h]
      rfl
    · rw [hq, hn, Nat.add_sub_cancel, hvoff, Nat.add_zero]
  · intro h
    have hge : ¬ Storage.ftellActive s ≥ max_size := Nat.not_le.mpr h
    have hvoff : Storage.writeVoff s
        = (s.next_file_id - 1) * max_size + Storage.ftellActive s := by
      simp [Storage.writeVoff, hge]
    have hdiv : Storage.writeVoff s / max_size = s.next_file_id - 1 := by
      rw [hvoff, Nat.mul_comm, Nat.mul_add_div max_size_pos,
        Nat.div_eq_of_lt h, Nat.add_zero]
    have hn : (Storage.write_to_log res k v s).next_file_id = s.next_file_id := by
      rw [hnext, if_neg hge]
    refine ⟨hn, ?_, ?_⟩
    · rw [hf, hn, hdiv, alGet_alSet_self, if_neg hge]
    · rw [hq, hn, hvoff]

/-- Witness for `rotation_and_virtual_offset` on the fresh store (no
rotation needed, record indexed at virtual offset 0). -/
theorem rotation_and_virtual_offset_witness :
    (4 = (record "a" (Storage.writeVoff stFresh)).length)
    ∧ ((Storage.ftellActive stFresh ≥ max_size →
        (Storage.put 4 "a" "x" stFresh).next_file_id = stFresh.next_file_id + 1
        ∧ alGet (Storage.put 4 "a" "x" stFresh).files
            ((Storage.put 4 "a" "x" stFresh).next_file_id - 1) = some [("a", "x")]
        ∧ (Storage.put 4 "a" "x" stFresh).map.not_confirmed
            = stFresh.map.not_confirmed
              ++ [("a", ((Storage.put 4 "a" "x" stFresh).next_file_id - 1) * max_size + 0)])
      ∧ (Storage.ftellActive stFresh < max_size →
        (Storage.put 4 "a" "x" stFresh).next_file_id = stFresh.next_file_id
        ∧ alGet (Storage.put 4 "a" "x" stFresh).files
            ((Storage.put 4 "a" "x" stFresh).next_file_id - 1)
            = some (Storage.activeContent stFresh ++ [("a", "x")])
        ∧ (Storage.put 4 "a" "x" stFresh).map.not_confirmed
            = stFresh.map.not_confirmed
              ++ [("a", ((Storage.put 4 "a" "x" stFresh).next_file_id - 1) * max_size
                      + Storage.ftellActive stFresh)])) :=
  ⟨by decide, rotation_and_virtual_offset stFresh "a" "x" 4 (by decide)⟩

/-- Whatever branch `get_from_log` takes (reusing the active handle or
opening the segment by name), it reads the file `offset / max_size`. -/
theorem get_from_log_eq (offset : Nat) (s : StState) :
    Storage.get_from_log offset s
      = match alGet s.files (offset / max_size) with
        | none => none
        | some recs => (readAt recs (offset % max_size)).map Prod.snd := by
  by_cases h : offset / max_size + 1 = s.next_file_id
  · have hpred : s.next_file_id - 1 = offset / max_size := by
      rw [← h, Nat.add_sub_cancel]
    simp [Storage.get_from_log, h, hpred]
  · simp [Storage.get_from_log, h]

theorem readAt_of_append (rs d : List Rec) (off : Nat) (r : Rec)
    (h : readAt rs off = some r) : readAt (rs ++ d) off = some r := by
  induction rs generalizing off with
  | nil => simp [readAt] at h
  | cons r0 t ih =>
    by_cases h0 : off = 0
    · simp [readAt, h0] at h ⊢
      exact h
    · by_cases h1 : off < recSize r0
      · simp [readAt, h0, h1] at h
      · simp [readAt, h0, h1] at h ⊢
        exact ih _ h

/-- C4 (confirmed): last-write-wins.  `put(k, v1)`, `put(k, v2)` (both
index writes fully flushed), `sync`, then `get(k)` returns `v2`. -/
theorem last_write_wins (s0 : StState) (k v1 v2 : String) (res1 res2 : Nat) (b1 b2 : Bool)
    (h1 : res1 = (record k (Storage.writeVoff s0)).length)
    (h2 : res2 = (record k (Storage.writeVoff (Storage.put res1 k v1 s0))).length) :
    Storage.get k (Storage.sync b1 b2 (Storage.put res2 k v2 (Storage.put res1 k v1 s0)))
      = some v2 := by
  simp only [Storage.put] at h2 ⊢
  obtain ⟨e2s, e2q, e2f, e2m, e2n⟩ :=
    write_to_log_effect res2 k v2 (Storage.write_to_log res1 k v1 s0) h2
  set s1 := Storage.write_to_log res1 k v1 s0 with hs1
  set s2 := Storage.write_to_log res2 k v2 s1 with hs2
  set voff2 := Storage.writeVoff s1 with hvoff2
  have hfind : PersistentStorage.find k (Storage.sync b1 b2 s2).map = some voff2 := by
    have h0 : PersistentStorage.find k (Storage.sync b1 b2 s2).map
        = alGet (PersistentStorage.drainQ s2.map._storage s2.map.not_confirmed) k := rfl
    rw [h0, e2q, drainQ_append]
    exact alGet_alSet_self _ _ _
  have hget : Storage.get k (Storage.sync b1 b2 s2)
      = Storage.get_from_log voff2 (Storage.sync b1 b2 s2) := by
    simp only [Storage.get, hfind]
  rw [hget, get_from_log_eq]
  have hfiles : (Storage.sync b1 b2 s2).files = s2.files := rfl
  rw [hfiles, e2f, alGet_alSet_self, e2m]
  simp only [readAt_append_last, Option.map]

/-- Witness for `last_write_wins`: two successful puts of `"a"` on the
fresh store (4- and 5-byte index records), then `sync` and `get`. -/
theorem last_write_wins_witness :
    (4 = (record "a" (Storage.writeVoff stFresh)).length
     ∧ 5 = (record "a" (Storage.writeVoff (Storage.put 4 "a" "x" stFresh))).length)
    ∧ Storage.get "a"
        (Storage.sync true true (Storage.put 5 "a" "y" (Storage.put 4 "a" "x" stFresh)))
        = some "y" :=
  ⟨⟨by decide, by decide⟩,
   last_write_wins stFresh "a" "x" "y" 4 5 true true (by decide) (by decide)⟩

theorem write_to_log_files_preserved (res : Nat) (k v : String) (s : StState) (i : Nat)
    (h : i + 1 < s.next_file_id) :
    alGet (Storage.write_to_log res k v s).files i = alGet s.files i
    ∧ (Storage.write_to_log res k v s).next_file_id ≥ s.next_file_id := by
  by_cases hrot : Storage.ftellActive s ≥ max_size
  · rw [write_to_log_rot res k v s hrot]
    have h1 : s.next_file_id ≠ i := by omega
    constructor
    · show alGet (alSet (alSet s.files s.next_file_id []) s.next_file_id [(k, v)]) i
        = alGet s.files i
      rw [alGet_alSet_ne _ _ _ _ h1, alGet_alSet_ne _ _ _ _ h1]
    · show s.next_file_id + 1 ≥ s.next_file_id
      omega
  · rw [write_to_log_norot res k v s hrot]
    have h1 : s.next_file_id - 1 ≠ i := by omega
    constructor
    · show alGet (alSet s.files (s.next_file_id - 1) (Storage.activeContent s ++ [(k, v)])) i
        = alGet s.files i
      rw [alGet_alSet_ne _ _ _ _ h1]
    · show s.next_file_id ≥ s.next_file_id
      omega

theorem write_to_log_storage (res : Nat) (k v : String) (s : StState) :
    (Storage.write_to_log res k v s).map._storage = s.map._storage := by
  by_cases hrot : Storage.ftellActive s ≥ max_size
  · rw [write_to_log_rot res k v s hrot]
    exact put_storage _ _ _ _
  · rw [write_to_log_norot res k v s hrot]
    exact put_storage _ _ _ _

theorem scanSeg_preserves (oracle : Nat → Nat) (c i : Nat) :
    ∀ (recs : List Rec) (off : Nat) (st : StState) (ctr : Nat),
      i + 1 < st.next_file_id →
      alGet (Storage.scanSeg oracle c recs off st ctr).1.files i = alGet st.files i
      ∧ (Storage.scanSeg oracle c recs off st ctr).1.next_file_id ≥ st.next_file_id := by
  intro recs
  induction recs with
  | nil =>
    intro off st ctr h
    exact ⟨rfl, Nat.le_refl _⟩
  | cons r rest ih =>
    intro off st ctr h
    obtain ⟨k, v⟩ := r
    rcases hfk : PersistentStorage.find k st.map with _ | saved
    · simp only [Storage.scanSeg, hfk]
      exact ih off st ctr h
    · simp only [Storage.scanSeg, hfk]
      by_cases hm : saved = c * max_size + off
      · simp only [if_pos hm]
        have hw := write_to_log_files_preserved (oracle ctr) k v st i h
        have h2 : i + 1 < (Storage.write_to_log (oracle ctr) k v st).next_file_id :=
          Nat.lt_of_lt_of_le h hw.2
        by_cases hb : off + (8 + k.length + 8 + v.length) ≥ max_size
        · simp only [if_pos hb]
          exact ⟨hw.1, hw.2⟩
        · simp only [if_neg hb]
          have ht := ih (off + (8 + k.length + 8 + v.length))
            { map := (PersistentStorage.put (oracle (ctr + 1)) k
                (((Storage.write_to_log (oracle ctr) k v st).next_file_id - 1) * max_size + off)
                (Storage.write_to_log (oracle ctr) k v st).map).2,
              files := (Storage.write_to_log (oracle ctr) k v st).files,
              next_file_id := (Storage.write_to_log (oracle ctr) k v st).next_file_id }
            (ctr + 2) h2
          exact ⟨ht.1.trans hw.1, Nat.le_trans hw.2 ht.2⟩
      · simp only [if_neg hm]
        by_cases hb : off + (8 + k.length + 8 + v.length) ≥ max_size
        · simp only [if_pos hb]
          exact ⟨by simp, by omega⟩
        · simp only [if_neg hb]
          exact ih (off + (8 + k.length + 8 + v.length)) st ctr h

theorem recoverSegs_preserves (oracle : Nat → Nat) (c i : Nat) :
    ∀ (l : List Nat) (st : StState) (ctr : Nat),
      i + 1 < st.next_file_id →
      alGet (Storage.recoverSegs oracle c l (st, ctr)).1.files i = alGet st.files i
      ∧ (Storage.recoverSegs oracle c l (st, ctr)).1.next_file_id ≥ st.next_file_id := by
  intro l
  induction l with
  | nil =>
    intro st ctr h
    exact ⟨rfl, Nat.le_refl _⟩
  | cons a t ih =>
    intro st ctr h
    have hs := scanSeg_preserves oracle c i ((alGet st.files a).getD []) 0 st ctr h
    have h2 : i + 1
        < (Storage.scanSeg oracle c ((alGet st.files a).getD []) 0 st ctr).1.next_file_id :=
      Nat.lt_of_lt_of_le h hs.2
    have ht := ih (Storage.scanSeg oracle c ((alGet st.files a).getD []) 0 st ctr).1
      (Storage.scanSeg oracle c ((alGet st.files a).getD []) 0 st ctr).2 h2
    exact ⟨ht.1.trans hs.1, Nat.le_trans hs.2 ht.2⟩

/-- C6 (counterexample): over three previously-known segments, the
recovery pass leaves `str_data_0` and `str_data_1` on disk — the claim
requires every previously-known segment except the most recent
(`id = 2`) to have been deleted. -/
theorem recovery_retains_old_segments :
    Storage.probe filesC6 = 3
    ∧ alGet (Storage.load_from_disk (fun _ => 0) psEmpty filesC6).files 0 = some []
    ∧ alGet (Storage.load_from_disk (fun _ => 0) psEmpty filesC6).files 1 = some [] := by
  exact ⟨by decide, by decide, by decide⟩

/-- C6 (amended): the recovery pass deletes nothing: every
previously-known segment file (every id below the probe result) is still
on disk with unchanged content after `load_from_disk`. -/
theorem recovery_deletes_no_segment (oracle : Nat → Nat) (map0 : PSState)
    (files0 : List (Nat × List Rec)) (i : Nat)
    (hi : i < Storage.probe files0) :
    alGet (Storage.load_from_disk oracle map0 files0).files i = alGet files0 i := by
  have hne : Storage.probe files0 ≠ i := by omega
  have hopen : alGet (alSet files0 (Storage.probe files0) ([] : List Rec)) i = alGet files0 i :=
    alGet_alSet_ne _ _ _ _ hne
  have h1 : i + 1 < Storage.probe files0 + 1 := by omega
  have hp := recoverSegs_preserves oracle (Storage.probe files0) i
    (List.range (Storage.probe files0))
    (Storage.open_new_file
      { map := map0, files := files0, next_file_id := Storage.probe files0 }) 0 h1
  exact hp.1.trans hopen

/-- Witness for `recovery_deletes_no_segment`: segment 0 of the
three-segment disk survives recovery untouched. -/
theorem recovery_deletes_no_segment_witness :
    (0 < Storage.probe filesC6)
    ∧ alGet (Storage.load_from_disk (fun _ => 0) psEmpty filesC6).files 0 = alGet filesC6 0 :=
  ⟨by decide, recovery_deletes_no_segment (fun _ => 0) psEmpty filesC6 0 (by decide)⟩

/-- C3 (code bug, evaluated): the record `("a", "x")` sits at virtual
offset `0 * max_size + 0 = 0` in previously-known segment 0 and the
index maps `"a"` to exactly that offset, so the claim requires it to be
re-appended through `put` and re-indexed at its new location in the
fresh segments.  The source instead compares the stored offset against
`file_id * max_size + offset` where `file_id` is the probe result (1),
finds `0 ≠ 33554432`, and skips the record: the recovered state still
maps `"a"` to the old offset 0, the fresh segment 1 stays empty, and no
index update was queued. -/
theorem recovery_live_record_not_reappended :
    Storage.probe filesC3 = 1
    ∧ PersistentStorage.find "a" psC3 = some (0 * max_size + 0)
    ∧ Storage.load_from_disk (fun _ => 0) psC3 filesC3
        = { map := psC3, files := [(0, [("a", "x")]), (1, [])], next_file_id := 2 } := by
  exact ⟨by decide, by decide, by decide⟩

theorem write_to_log_kfree (res : Nat) (k' v : String) (s : StState) (k : String) (n : Nat)
    (hne : k' ≠ k) (hkf : KFree k n s) :
    KFree k n (Storage.write_to_log res k' v s) := by
  by_cases hrot : Storage.ftellActive s ≥ max_size
  · rw [write_to_log_rot res k' v s hrot]
    intro j hj1 hj2 r hr
    dsimp only at hj2 hr
    by_cases hji : j = s.next_file_id
    · rw [hji, alGet_alSet_self] at hr
      simp only [Option.getD_some, List.mem_singleton] at hr
      rw [hr]
      exact hne
    · have hj2' : j < s.next_file_id := by omega
      rw [alGet_alSet_ne _ _ _ _ fun he => hji he.symm,
        alGet_alSet_ne _ _ _ _ fun he => hji he.symm] at hr
      exact hkf j hj1 hj2' r hr
  · rw [write_to_log_norot res k' v s hrot]
    intro j hj1 hj2 r hr
    dsimp only at hj2 hr
    have hj2' : j < s.next_file_id := hj2
    by_cases hji : j = s.next_file_id - 1
    · rw [hji, alGet_alSet_self] at hr
      simp only [Option.getD_some, List.mem_append, List.mem_singleton] at hr
      have hj1' : n ≤ s.next_file_id - 1 := by omega
      have hj2'' : s.next_file_id - 1 < s.next_file_id := by omega
      rcases hr with hr | hr
      · exact hkf (s.next_file_id - 1) hj1' hj2'' r hr
      · rw [hr]
        exact hne
    · rw [alGet_alSet_ne _ _ _ _ fun he => hji he.symm] at hr
      exact hkf j hj1 hj2' r hr

theorem scanSeg_kfree (oracle : Nat → Nat) (c : Nat) (k : String) (n : Nat) :
    ∀ (recs : List Rec) (off : Nat) (st : StState) (ctr : Nat),
      alGet st.map._storage k = none → KFree k n st →
      alGet (Storage.scanSeg oracle c recs off st ctr).1.map._storage k = none
      ∧ KFree k n (Storage.scanSeg oracle c recs off st ctr).1 := by
  intro recs
  induction recs with
  | nil =>
    intro off st ctr hs hkf
    exact ⟨hs, hkf⟩
  | cons r rest ih =>
    intro off st ctr hs hkf
    obtain ⟨k0, v⟩ := r
    rcases hfk : PersistentStorage.find k0 st.map with _ | saved
    · simp only [Storage.scanSeg, hfk]
      exact ih off st ctr hs hkf
    · have hk0 : k0 ≠ k := by
        intro he
        subst he
        rw [PersistentStorage.find, hs] at hfk
        exact Option.noConfusion hfk
      simp only [Storage.scanSeg, hfk]
      by_cases hm : saved = c * max_size + off
      · simp only [if_pos hm]
        have hsA : alGet (Storage.write_to_log (oracle ctr) k0 v st).map._storage k = none := by
          rw [write_to_log_storage]
          exact hs
        have hsB : alGet ((PersistentStorage.put (oracle (ctr + 1)) k0
              (((Storage.write_to_log (oracle ctr) k0 v st).next_file_id - 1) * max_size + off)
              (Storage.write_to_log (oracle ctr) k0 v st).map).2)._storage k = none := by
          rw [put_storage]
          exact hsA
        have hkfA : KFree k n (Storage.write_to_log (oracle ctr) k0 v st) :=
          write_to_log_kfree (oracle ctr) k0 v st k n hk0 hkf
        by_cases hb : off + (8 + k0.length + 8 + v.length) ≥ max_size
        · simp only [if_pos hb]
          exact ⟨hsB, hkfA⟩
        · simp only [if_neg hb]
          exact ih (off + (8 + k0.length + 8 + v.length)) _ (ctr + 2) hsB hkfA
      · simp only [if_neg hm]
        by_cases hb : off + (8 + k0.length + 8 + v.length) ≥ max_size
        · simp only [if_pos hb]
          exact ⟨hs, hkf⟩
        · simp only [if_neg hb]
          exact ih (off + (8 + k0.length + 8 + v.length)) st ctr hs hkf

theorem recoverSegs_kfree (oracle : Nat → Nat) (c : Nat) (k : String) (n : Nat) :
    ∀ (l : List Nat) (st : StState) (ctr : Nat),
      alGet st.map._storage k = none → KFree k n st →
      alGet (Storage.recoverSegs oracle c l (st, ctr)).1.map._storage k = none
      ∧ KFree k n (Storage.recoverSegs oracle c l (st, ctr)).1 := by
  intro l
  induction l with
  | nil =>
    intro st ctr hs hkf
    exact ⟨hs, hkf⟩
  | cons a t ih =>
    intro st ctr hs hkf
    have hstep := scanSeg_kfree oracle c k n ((alGet st.files a).getD []) 0 st ctr hs hkf
    exact ih (Storage.scanSeg oracle c ((alGet st.files a).getD []) 0 st ctr).1
      (Storage.scanSeg oracle c ((alGet st.files a).getD []) 0 st ctr).2 hstep.1 hstep.2

/-- C8 (confirmed): orphan skip.  A key absent from the Key Index before
the recovery pass is still absent afterwards (`find` and `get` return
not-found), and no segment file the pass created or wrote (ids from the
probe result up to the final `next_file_id`) holds any record with that
key — orphan records are neither re-appended nor indexed. -/
theorem orphan_skip (oracle : Nat → Nat) (map0 : PSState)
    (files0 : List (Nat × List Rec)) (k : String) (j : Nat)
    (hk : alGet map0._storage k = none) :
    PersistentStorage.find k (Storage.load_from_disk oracle map0 files0).map = none
    ∧ Storage.get k (Storage.load_from_disk oracle map0 files0) = none
    ∧ (Storage.probe files0 ≤ j →
        j < (Storage.load_from_disk oracle map0 files0).next_file_id →
        ∀ r ∈ (alGet (Storage.load_from_disk oracle map0 files0).files j).getD ([] : List Rec),
          r.1 ≠ k) := by
  have hkf0 : KFree k (Storage.probe files0)
      (Storage.open_new_file
        { map := map0, files := files0, next_file_id := Storage.probe files0 }) := by
    intro j' hj1 hj2 r hr
    dsimp only [Storage.open_new_file] at hj2 hr
    have hj : j' = Storage.probe files0 := by omega
    rw [hj, alGet_alSet_self] at hr
    simp at hr
  have hrec := recoverSegs_kfree oracle (Storage.probe files0) k (Storage.probe files0)
    (List.range (Storage.probe files0))
    (Storage.open_new_file
      { map := map0, files := files0, next_file_id := Storage.probe files0 }) 0 hk hkf0
  have hfind : PersistentStorage.find k (Storage.load_from_disk oracle map0 files0).map
      = none := hrec.1
  refine ⟨hfind, ?_, ?_⟩
  · simp only [Storage.get, hfind]
  · intro hj1 hj2 r hr
    exact hrec.2 j hj1 hj2 r hr

theorem digit_not_ws (c : Char) (h : c.isDigit = true) : isWS c = false := by
  by_contra hw
  rw [Bool.not_eq_false] at hw
  simp only [isWS, Bool.or_eq_true, decide_eq_true_eq] at hw
  rcases hw with ((((h1 | h1) | h1) | h1) | h1) | h1 <;> (subst h1; exact absurd h (by decide))

theorem ofNat_digit_isDigit (r : Nat) (h : r < 10) :
    (Char.ofNat (48 + r)).isDigit = true := by
  interval_cases r <;> decide

theorem natDigitsCore_digits : ∀ (fuel n : Nat) (acc : List Char),
    (∀ c ∈ acc, c.isDigit = true) → ∀ c ∈ natDigitsCore fuel n acc, c.isDigit = true := by
  intro fuel
  induction fuel with
  | zero =>
    intro n acc h c hc
    exact h c hc
  | succ f ih =>
    intro n acc h c hc
    rw [natDigitsCore] at hc
    by_cases hn : n = 0
    · rw [if_pos hn] at hc
      exact h c hc
    · rw [if_neg hn] at hc
      refine ih (n / 10) _ ?_ c hc
      intro c' hc'
      rcases List.mem_cons.mp hc' with h1 | h1
      · rw [h1]
        exact ofNat_digit_isDigit (n % 10) (Nat.mod_lt _ (by decide))
      · exact h c' h1

theorem natDigits_digits (n : Nat) : ∀ c ∈ natDigits n, c.isDigit = true := by
  rw [natDigits]
  by_cases hn : n = 0
  · rw [if_pos hn]
    intro c hc
    simp at hc
    rw [hc]
    decide
  · rw [if_neg hn]
    exact natDigitsCore_digits n n [] (by intro c hc; simp at hc)

theorem natDigitsCore_ne_nil : ∀ (fuel n : Nat) (acc : List Char),
    acc ≠ [] → natDigitsCore fuel n acc ≠ [] := by
  intro fuel
  induction fuel with
  | zero =>
    intro n acc h
    exact h
  | succ f ih =>
    intro n acc h
    rw [natDigitsCore]
    by_cases hn : n = 0
    · rw [if_pos hn]
      exact h
    · rw [if_neg hn]
      exact ih _ _ (by simp)

theorem natDigits_ne_nil (n : Nat) : natDigits n ≠ [] := by
  rw [natDigits]
  by_cases hn : n = 0
  · rw [if_pos hn]
    simp
  · rw [if_neg hn]
    obtain ⟨f, hf⟩ := Nat.exists_eq_succ_of_ne_zero hn
    rw [hf, natDigitsCore, if_neg (by omega)]
    exact natDigitsCore_ne_nil _ _ _ (by simp)

theorem takeWhile_append_of (p : Char → Bool) (xs : List Char) (y : Char) (ys : List Char)
    (hx : ∀ x ∈ xs, p x = true) (hy : p y = false) :
    (xs ++ y :: ys).takeWhile p = xs := by
  induction xs with
  | nil =>
    simp only [List.nil_append, List.takeWhile_cons, hy]
    simp
  | cons a t ih =>
    have ha : p a = true := hx a (List.mem_cons_self _ _)
    simp only [List.cons_append, List.takeWhile_cons, ha, if_true]
    rw [ih fun x hxm => hx x (List.mem_cons_of_mem _ hxm)]

theorem dropWhile_isWS_of_head (c : Char) (l : List Char) (h : isWS c = false) :
    (c :: l).dropWhile isWS = c :: l := by
  rw [List.dropWhile_cons, h]
  simp

theorem dropWhile_isWS_space (l : List Char) :
    (' ' :: l).dropWhile isWS = l.dropWhile isWS := by
  rw [List.dropWhile_cons, show isWS ' ' = true from rfl]
  simp

theorem parseCharsF_cons_ws (f : Nat) (c : Char) (cs : List Char)
    (acc : List (String × Nat)) (h : isWS c = true) :
    parseCharsF f (c :: cs) acc = parseCharsF f cs acc := by
  cases f with
  | zero => rfl
  | succ f' =>
    simp only [parseCharsF]
    rw [List.dropWhile_cons, h]
    simp

theorem parseCharsF_keys_wf : ∀ (fuel : Nat) (cs : List Char) (acc : List (String × Nat)),
    (∀ p ∈ acc, wfKey p.1) → ∀ p ∈ parseCharsF fuel cs acc, wfKey p.1 := by
  intro fuel
  induction fuel with
  | zero =>
    intro cs acc h p hp
    exact h p hp
  | succ f ih =>
    intro cs acc h p hp
    simp only [parseCharsF] at hp
    split at hp
    · exact h p hp
    · split at hp
      · exact h p hp
      · rename_i hkey hdig
        refine ih _ _ ?_ p hp
        intro q hq
        rcases mem_alSet _ _ _ _ hq with h3 | h3
        · exact h q h3
        · rw [h3]
          refine ⟨hkey, ?_⟩
          intro c hc
          have h4 := List.mem_takeWhile_imp hc
          simp only [Bool.not_eq_true'] at h4
          exact h4

theorem parse_record_step (f : Nat) (k : String) (v : Nat) (rest : List Char)
    (acc : List (String × Nat)) (hk : wfKey k) :
    parseCharsF (f + 1) (record k v ++ rest) acc
      = parseCharsF f (' ' :: rest) (alSet acc k (natOfDigits (natDigits v))) := by
  obtain ⟨hne, hnw⟩ := hk
  have hD : natDigits v ≠ [] := natDigits_ne_nil v
  have hshape : record k v ++ rest
      = k.data ++ (' ' :: (natDigits v ++ (' ' :: rest))) := by
    simp [record]
  rw [hshape]
  simp only [parseCharsF]
  have h1 : (k.data ++ (' ' :: (natDigits v ++ (' ' :: rest)))).dropWhile isWS
      = k.data ++ (' ' :: (natDigits v ++ (' ' :: rest))) := by
    cases hdata : k.data with
    | nil => exact absurd hdata hne
    | cons c0 ct =>
      rw [List.cons_append]
      exact dropWhile_isWS_of_head c0 _
        (hnw c0 (by rw [hdata]; exact List.mem_cons_self _ _))
  rw [h1]
  have h2 : (k.data ++ (' ' :: (natDigits v ++ (' ' :: rest)))).takeWhile (fun c => !isWS c)
      = k.data := by
    apply takeWhile_append_of
    · intro x hx
      simp [hnw x hx]
    · decide
  rw [h2, if_neg hne, List.drop_left]
  have h3 : (' ' :: (natDigits v ++ (' ' :: rest))).dropWhile isWS
      = natDigits v ++ (' ' :: rest) := by
    rw [dropWhile_isWS_space]
    cases hD' : natDigits v with
    | nil => exact absurd hD' hD
    | cons d0 dt =>
      rw [List.cons_append]
      exact dropWhile_isWS_of_head d0 _
        (digit_not_ws d0 (natDigits_digits v d0 (by rw [hD']; exact List.mem_cons_self _ _)))
  rw [h3]
  have h4 : (natDigits v ++ (' ' :: rest)).takeWhile Char.isDigit = natDigits v :=
    takeWhile_append_of _ _ _ _ (natDigits_digits v) (by decide)
  rw [h4, if_neg hD, List.drop_left]

theorem serializeMap_length_ge (m : List (String × Nat)) :
    m.length ≤ (serializeMap m).length := by
  induction m with
  | nil => simp [serializeMap]
  | cons p t ih =>
    obtain ⟨k, v⟩ := p
    have hrec : 1 ≤ (record k v).length := by
      simp only [record, List.length_append, List.length_cons]
      omega
    simp only [serializeMap, List.length_append, List.length_cons]
    omega

theorem parse_serialize_absent :
    ∀ (m : List (String × Nat)) (fuel : Nat) (acc : List (String × Nat)) (k : String),
      (∀ p ∈ m, wfKey p.1) → m.length + 1 ≤ fuel →
      alGet acc k = none → k ∉ m.map Prod.fst →
      alGet (parseCharsF fuel (serializeMap m) acc) k = none := by
  intro m
  induction m with
  | nil =>
    intro fuel acc k hwf hfuel hacc hk
    cases fuel with
    | zero => exact hacc
    | succ f =>
      simp only [serializeMap, parseCharsF]
      simp [hacc]
  | cons p t ih =>
    obtain ⟨k0, v0⟩ := p
    intro fuel acc k hwf hfuel hacc hk
    obtain ⟨f, rfl⟩ : ∃ f, fuel = f + 1 := ⟨fuel - 1, by omega⟩
    have hwk : wfKey k0 := hwf (k0, v0) (List.mem_cons_self _ _)
    have hk0 : k ≠ k0 := by
      intro he
      exact hk (by rw [he]; exact List.mem_cons_self _ _)
    rw [show serializeMap ((k0, v0) :: t) = record k0 v0 ++ serializeMap t from rfl]
    rw [parse_record_step f k0 v0 (serializeMap t) acc hwk]
    rw [parseCharsF_cons_ws f ' ' _ _ (by decide)]
    refine ih f _ k (fun q hq => hwf q (List.mem_cons_of_mem _ hq)) (by
      simp only [List.length_cons] at hfuel
      omega) ?_ (fun hmem => hk (List.mem_cons_of_mem _ hmem))
    rw [alGet_alSet_ne _ _ _ _ fun he => hk0 he.symm]
    exact hacc

/-- C9 (confirmed): clean shutdown discards unconfirmed writes.  A key
`put` (and physically flushed to the append log) but never confirmed by
`sync` is absent from the authoritative map, so the destructor — which
rewrites `data.log` from the authoritative map alone — erases its logged
entry, and after a clean restart over the rewritten log, `find` on that
key returns none. -/
theorem clean_shutdown_discards_unconfirmed (content : List Char) (k : String) (v res : Nat)
    (hres : res = (record k v).length)
    (hk : PersistentStorage.find k (PersistentStorage.ctor content) = none) :
    ((PersistentStorage.put res k v (PersistentStorage.ctor content)).2).log
      = (PersistentStorage.ctor content).log ++ record k v
    ∧ PersistentStorage.find k
        (PersistentStorage.ctor
          (PersistentStorage.dtor
            (PersistentStorage.put res k v (PersistentStorage.ctor content)).2))
        = none := by
  constructor
  · exact (put_success_state res k v _ hres).2
  · have hstor := put_storage res k v (PersistentStorage.ctor content)
    have hdtor : PersistentStorage.dtor
        (PersistentStorage.put res k v (PersistentStorage.ctor content)).2
        = serializeMap (loadMap content) := by
      rw [PersistentStorage.dtor, hstor]
      rfl
    rw [hdtor]
    have hwf : ∀ p ∈ loadMap content, wfKey p.1 :=
      parseCharsF_keys_wf _ _ _ (by intro p hp; simp at hp)
    have hkm : k ∉ (loadMap content).map Prod.fst := by
      have hnone : alGet (loadMap content) k = none := hk
      exact (alGet_eq_none_iff _ _).mp hnone
    have hfuel : (loadMap content).length + 1 ≤ (serializeMap (loadMap content)).length + 1 := by
      have := serializeMap_length_ge (loadMap content)
      omega
    show alGet (loadMap (serializeMap (loadMap content))) k = none
    exact parse_serialize_absent (loadMap content) _ [] k hwf hfuel rfl hkm

/-- Witness for `clean_shutdown_discards_unconfirmed`: a log confirming
only `"b"`, a flushed-but-unconfirmed `put("a", 1)`, destruction, then a
clean restart: `find "a"` misses. -/
theorem clean_shutdown_discards_unconfirmed_witness :
    (4 = (record "a" 1).length
     ∧ PersistentStorage.find "a" (PersistentStorage.ctor (record "b" 7)) = none)
    ∧ (((PersistentStorage.put 4 "a" 1 (PersistentStorage.ctor (record "b" 7))).2).log
         = (PersistentStorage.ctor (record "b" 7)).log ++ record "a" 1
       ∧ PersistentStorage.find "a"
           (PersistentStorage.ctor
             (PersistentStorage.dtor
               (PersistentStorage.put 4 "a" 1 (PersistentStorage.ctor (record "b" 7))).2))
           = none) :=
  ⟨⟨by decide, by decide⟩,
   clean_shutdown_discards_unconfirmed (record "b" 7) "a" 1 4 (by decide) (by decide)⟩

/-- C10 (counterexample): constructed over a `data.log` confirming
`("a", 1)` with filename argument `"other.log"`, the instance loads the
map from `data.log`, but a subsequent `put("b", 2)` appends its record to
`other.log` while `data.log` keeps only the rewritten snapshot — so the
instance does not append to `data.log`, and two instances built with
arguments `"other.log"` and `"data.log"` leave different file systems. -/
theorem ctor_filename_arg_reaches_append_handle :
    (PersistentStorageF.ctor "other.log" fsC10)._storage = [("a", 1)]
    ∧ alGet (PersistentStorageF.put 4 "b" 2 (PersistentStorageF.ctor "other.log" fsC10)).fs
        "other.log" = some (record "b" 2)
    ∧ alGet (PersistentStorageF.put 4 "b" 2 (PersistentStorageF.ctor "other.log" fsC10)).fs
        "data.log" = some (record "a" 1)
    ∧ (PersistentStorageF.put 4 "b" 2 (PersistentStorageF.ctor "other.log" fsC10)).fs
        ≠ (PersistentStorageF.put 4 "b" 2 (PersistentStorageF.ctor "data.log" fsC10)).fs := by
  exact ⟨by decide, by decide, by decide, by decide⟩

/-- C10 (amended): the constructor's parameter self-assignment leaves the
member filename at `data.log`, so every instance loads its map from and
rewrites `data.log` whatever the argument; but the append handle is
opened on the argument-named file, so `put` records go there — instances
with different filename arguments differ in which file receives
appends. -/
theorem ctor_filename_partially_ignored (arg : String) (fs0 : List (String × List Char))
    (res : Nat) (k : String) (v : Nat) (harg : arg ≠ "data.log") :
    (PersistentStorageF.ctor arg fs0)._storage = loadMap ((alGet fs0 "data.log").getD [])
    ∧ (PersistentStorageF.ctor arg fs0).handle = arg
    ∧ alGet (PersistentStorageF.ctor arg fs0).fs "data.log"
        = some (serializeMap (loadMap ((alGet fs0 "data.log").getD [])))
    ∧ alGet (PersistentStorageF.put res k v (PersistentStorageF.ctor arg fs0)).fs "data.log"
        = alGet (PersistentStorageF.ctor arg fs0).fs "data.log" := by
  refine ⟨rfl, rfl, ?_, ?_⟩
  · simp only [PersistentStorageF.ctor]
    split
    · exact alGet_alSet_self _ _ _
    · rw [alGet_alSet_ne _ _ _ _ harg]
      exact alGet_alSet_self _ _ _
  · have hh : (PersistentStorageF.ctor arg fs0).handle = arg := rfl
    simp only [PersistentStorageF.put]
    split
    · dsimp only
      rw [hh, alGet_alSet_ne _ _ _ _ harg]
    · dsimp only
      rw [hh, alGet_alSet_ne _ _ _ _ harg]

/-- Witness for `ctor_filename_partially_ignored`: argument
`"other.log"` over the one-file system. -/
theorem ctor_filename_partially_ignored_witness :
    (("other.log" : String) ≠ "data.log")
    ∧ ((PersistentStorageF.ctor "other.log" fsC10)._storage
         = loadMap ((alGet fsC10 "data.log").getD [])
       ∧ (PersistentStorageF.ctor "other.log" fsC10).handle = "other.log"
       ∧ alGet (PersistentStorageF.ctor "other.log" fsC10).fs "data.log"
           = some (serializeMap (loadMap ((alGet fsC10 "data.log").getD [])))
       ∧ alGet (PersistentStorageF.put 4 "b" 2
             (PersistentStorageF.ctor "other.log" fsC10)).fs "data.log"
           = alGet (PersistentStorageF.ctor "other.log" fsC10).fs "data.log") :=
  ⟨by decide,
   ctor_filename_partially_ignored "other.log" fsC10 4 "b" 2 (by decide)⟩

/-- Witness for `orphan_skip`: key `"a"` is absent from the empty index,
segment 0 holds an orphaned record for it, and after recovery `find` and
`get` still miss and the fresh segment (id 1) holds no `"a"` record. -/
theorem orphan_skip_witness :
    (alGet psEmpty._storage "a" = none)
    ∧ (PersistentStorage.find "a"
        (Storage.load_from_disk (fun _ => 0) psEmpty [(0, [("a", "x")])]).map = none
      ∧ Storage.get "a" (Storage.load_from_disk (fun _ => 0) psEmpty [(0, [("a", "x")])]) = none
      ∧ (Storage.probe [(0, [("a", "x")])] ≤ 1 →
          1 < (Storage.load_from_disk (fun _ => 0) psEmpty [(0, [("a", "x")])]).next_file_id →
          ∀ r ∈ (alGet (Storage.load_from_disk (fun _ => 0) psEmpty
                [(0, [("a", "x")])]).files 1).getD ([] : List Rec),
            r.1 ≠ "a")) :=
  ⟨by decide, orphan_skip (fun _ => 0) psEmpty [(0, [("a", "x")])] "a" 1 (by decide)⟩

end LocalStorage
